import Mathlib

/-!
# Verification of `src/script.js` (HTML tree visualizer)

A shallow embedding of the DOM-manipulating script in `src/script.js`:

* `DomNode` models the node tree a standard `text/html` parser produces
  (element / text / comment; text and comment nodes are leaves, as in the DOM);
* `assignIdsToElements` models the identity tagger (the global `nodeIdCounter`
  becomes an explicit counter threaded through the recursion);
* `convertToTree` models the tree extractor;
* `UIState` together with `highlightTreeNode`, `highlightHTMLSide`,
  `unhighlightHTMLSide`, `resetTreeHighlights`, `resetHTMLHighlights` models the
  highlight coordinator acting on the two surfaces (d3 `.node` groups and the
  iframe document's elements, each kept in document order);
* `updateTree` models the update orchestrator.

Identifiers are the strings `node-<decimal counter>` exactly as in the script,
so the development starts with a verified characterisation of `Nat.repr`
(decimal printing) sufficient to prove identifier distinctness.
-/

/-! ## Decimal printing: a fuel-free characterisation of `Nat.repr` -/

/-- The decimal digits of `n`, most significant first, as characters.
Mirrors what `Nat.toDigitsCore 10` produces, without the fuel argument. -/
def reprDigits (n : Nat) : List Char :=
  if h : n / 10 = 0 then [Nat.digitChar (n % 10)]
  else reprDigits (n / 10) ++ [Nat.digitChar (n % 10)]
decreasing_by
  exact Nat.div_lt_self (Nat.pos_of_ne_zero fun h0 => h (by simp [h0])) (by omega)

/-- Value of a decimal digit character. -/
def digitVal (ch : Char) : Nat := ch.toNat - '0'.toNat

/-- Reads a most-significant-first decimal digit list back into a number. -/
def decodeDigits (l : List Char) : Nat :=
  l.foldl (fun acc ch => acc * 10 + digitVal ch) 0

theorem digitVal_digitChar : ∀ d, d < 10 → digitVal (Nat.digitChar d) = d := by
  decide

theorem toDigitsCore_eq_reprDigits (fuel n : Nat) (ds : List Char) (h : n < fuel) :
    Nat.toDigitsCore 10 fuel n ds = reprDigits n ++ ds := by
  induction fuel generalizing n ds with
  | zero => omega
  | succ f ih =>
    rw [Nat.toDigitsCore]
    by_cases hn : n / 10 = 0
    · simp only [hn, if_true]
      rw [reprDigits, dif_pos hn]
      simp
    · simp only [hn, if_false]
      have hpos : 0 < n := by
        rcases Nat.eq_zero_or_pos n with h0 | h0
        · exact absurd (by simp [h0]) hn
        · exact h0
      have hlt : n / 10 < f := by
        have := Nat.div_lt_self hpos (by omega : 1 < 10)
        omega
      rw [ih (n / 10) _ hlt]
      conv_rhs => rw [reprDigits]
      rw [dif_neg hn]
      simp

theorem repr_eq_reprDigits (n : Nat) : Nat.repr n = (reprDigits n).asString := by
  rw [Nat.repr, Nat.toDigits, toDigitsCore_eq_reprDigits (n + 1) n [] (by omega)]
  simp

theorem decodeDigits_append_singleton (l : List Char) (c : Char) :
    decodeDigits (l ++ [c]) = decodeDigits l * 10 + digitVal c := by
  simp [decodeDigits, List.foldl_append]

theorem decodeDigits_reprDigits (n : Nat) : decodeDigits (reprDigits n) = n := by
  induction n using reprDigits.induct with
  | case1 n h =>
    rw [reprDigits, dif_pos h]
    have hn : n % 10 = n := by omega
    rw [hn]
    simp [decodeDigits, digitVal_digitChar n (by omega)]
  | case2 n h ih =>
    rw [reprDigits, dif_neg h]
    rw [decodeDigits_append_singleton, ih,
      digitVal_digitChar _ (Nat.mod_lt _ (by omega))]
    omega

theorem reprDigits_injective : Function.Injective reprDigits := by
  intro m n h
  have := congrArg decodeDigits h
  rwa [decodeDigits_reprDigits, decodeDigits_reprDigits] at this

theorem natRepr_injective : Function.Injective Nat.repr := by
  intro m n h
  rw [repr_eq_reprDigits, repr_eq_reprDigits] at h
  exact reprDigits_injective (congrArg String.data h)

/-- The identifier written by the tagger: `` `node-${c}` `` in the script. -/
def mkNodeId (c : Nat) : String := "node-" ++ Nat.repr c

theorem mkNodeId_injective : Function.Injective mkNodeId := by
  intro m n h
  apply natRepr_injective
  have hdata : "node-".data ++ (Nat.repr m).data = "node-".data ++ (Nat.repr n).data := by
    have := congrArg String.data h
    simpa [mkNodeId, String.data_append] using this
  have := List.append_cancel_left hdata
  cases hm : Nat.repr m with
  | mk dm =>
    cases hn : Nat.repr n with
    | mk dn =>
      rw [hm, hn] at this
      simp only [hm, hn] at this ⊢
      exact congrArg String.mk this

/-- Reads the counter value back out of an identifier `node-<k>`
(the numeric part of the identifier). -/
def numericPart (s : String) : Nat := decodeDigits (s.data.drop 5)

theorem numericPart_mkNodeId (k : Nat) : numericPart (mkNodeId k) = k := by
  have hdata : (mkNodeId k).data = "node-".data ++ (Nat.repr k).data := by
    simp [mkNodeId, String.data_append]
  have hlen : "node-".data.length = 5 := by decide
  rw [numericPart, hdata, ← hlen, List.drop_left, repr_eq_reprDigits]
  simpa using decodeDigits_reprDigits k

/-! ## The DOM model

`DomNode` models the node tree produced by `DOMParser.parseFromString(html,
"text/html")` and traversed by the script: element nodes carry the `tagName`
(upper-case for HTML elements, as the DOM reports it), the current value of
the `data-node-id` attribute (the only attribute the script reads or writes;
`none` when absent, since `getAttribute` returns `null` then), and the list
of `childNodes` in document order.  Text and comment nodes are leaves: in the
DOM, the non-element nodes that can occur among an element's `childNodes`
(text, comment, CDATA, processing instruction) have no children. -/

inductive DomNode : Type where
  | element (tagName : String) (dataNodeId : Option String) (children : List DomNode)
  | text (data : String)
  | comment (data : String)

/-- `Node.nodeType`: 1 for elements, 3 for text nodes, 8 for comments. -/
def DomNode.nodeType : DomNode → Nat
  | .element _ _ _ => 1
  | .text _ => 3
  | .comment _ => 8

/-- `Element.getAttribute("data-node-id")` (`none` plays the role of `null`). -/
def DomNode.getDataNodeId : DomNode → Option String
  | .element _ id _ => id
  | _ => none

/-- `Element.tagName` (the empty string on non-elements, which the script
never queries). -/
def DomNode.tagName : DomNode → String
  | .element tag _ _ => tag
  | _ => ""

mutual
/-- `Node.textContent` on the nodes the script reads it from: for an element,
the concatenation of the data of all descendant text nodes in document order
(comments do not contribute); for a text node, its data. -/
def DomNode.textContent : DomNode → String
  | .element _ _ cs => textContentOfChildren cs
  | .text s => s
  | .comment _ => ""

def textContentOfChildren : List DomNode → String
  | [] => ""
  | c :: cs => c.textContent ++ textContentOfChildren cs
end

/-- `String.prototype.trim()`: strip leading and trailing whitespace. -/
def jsTrim (s : String) : String :=
  (((s.data.dropWhile Char.isWhitespace).reverse.dropWhile Char.isWhitespace).reverse).asString

/-- `String.prototype.toLowerCase()` on the ASCII tag names that occur here. -/
def jsToLowerCase (s : String) : String := (s.data.map Char.toLower).asString

mutual
/-- `assignIdsToElements` (src/script.js lines 7–15).  The script's global
`nodeIdCounter` is threaded explicitly: the call receives the current counter
and returns the updated node together with the counter after the call.  An
element receives `node-<counter>` (post-increment) in `data-node-id` and its
`childNodes` are then visited in order; on a non-element node nothing at all
happens (the `nodeType === 1` test fails). -/
def assignIdsToElements (c : Nat) : DomNode → DomNode × Nat
  | .element tag _ cs =>
    let uniqueId := mkNodeId c
    let r := assignIdsToChildren (c + 1) cs
    (.element tag (some uniqueId) r.1, r.2)
  | n => (n, c)

/-- The `element.childNodes.forEach((child) => assignIdsToElements(child))`
loop, threading the counter left to right. -/
def assignIdsToChildren (c : Nat) : List DomNode → List DomNode × Nat
  | [] => ([], c)
  | x :: xs =>
    let r₁ := assignIdsToElements c x
    let r₂ := assignIdsToChildren r₁.2 xs
    (r₁.1 :: r₂.1, r₂.2)
end

/-- The extracted tree data (`convertToTree`'s return object): `nodeId` is the
`data-node-id` attribute value (`null` → `none`), `name` the lower-cased tag
name, `textContent` the trimmed aggregate text, `children` the extracted
element children in document order. -/
inductive TreeNode : Type where
  | mk (nodeId : Option String) (name : String) (textContent : String)
       (children : List TreeNode)

def TreeNode.nodeId : TreeNode → Option String
  | .mk id _ _ _ => id

def TreeNode.name : TreeNode → String
  | .mk _ n _ _ => n

def TreeNode.textContent : TreeNode → String
  | .mk _ _ t _ => t

def TreeNode.children : TreeNode → List TreeNode
  | .mk _ _ _ cs => cs

mutual
/-- `convertToTree` (src/script.js lines 22–44): `null` (here `none`) on a
non-element node; otherwise an object holding the `data-node-id` attribute,
the lower-cased tag name, the trimmed `textContent`, and the recursively
converted children with the `null` results filtered out. -/
def convertToTree : DomNode → Option TreeNode
  | .element tag id cs =>
    some (.mk id (jsToLowerCase tag)
      (jsTrim (DomNode.textContent (.element tag id cs)))
      (convertChildren cs))
  | _ => none

/-- The `element.childNodes.forEach` loop of `convertToTree`: convert each
child and push the non-`null` results in order. -/
def convertChildren : List DomNode → List TreeNode
  | [] => []
  | x :: xs =>
    match convertToTree x with
    | some t => t :: convertChildren xs
    | none => convertChildren xs
end

mutual
/-- Number of element nodes in a DOM subtree. -/
def countElements : DomNode → Nat
  | .element _ _ cs => 1 + countElementsOfChildren cs
  | _ => 0

def countElementsOfChildren : List DomNode → Nat
  | [] => 0
  | x :: xs => countElements x + countElementsOfChildren xs
end

mutual
/-- Number of nodes in an extracted tree. -/
def countTreeNodes : TreeNode → Nat
  | .mk _ _ _ cs => 1 + countTreeNodesOfList cs

def countTreeNodesOfList : List TreeNode → Nat
  | [] => 0
  | t :: ts => countTreeNodes t + countTreeNodesOfList ts
end

mutual
/-- The `data-node-id` values of the element nodes of a DOM subtree, in
depth-first pre-order (document order). -/
def elementIds : DomNode → List (Option String)
  | .element _ id cs => id :: elementIdsOfChildren cs
  | _ => []

def elementIdsOfChildren : List DomNode → List (Option String)
  | [] => []
  | x :: xs => elementIds x ++ elementIdsOfChildren xs
end

/-! ## The two surfaces and the highlight coordinator

The tree visualization surface is the collection of d3 `.node` groups, each
bound to one `TreeNode` datum (`d.data`); the script only ever reads
`d.data.nodeId` and toggles the `highlighted-node` class, so a visual node is
modelled by those two observables.  The preview surface is the list of
elements of the iframe document in document order; the script reads the
`data-node-id` attribute and toggles the `highlighted` and `hovered`
classes. -/

structure VizNode where
  nodeId : Option String
  highlightedNode : Bool
deriving DecidableEq

structure PreviewElem where
  dataNodeId : Option String
  highlighted : Bool
  hovered : Bool
deriving DecidableEq

structure UIState where
  treeNodes : List VizNode
  previewElems : List PreviewElem
deriving DecidableEq

/-- `resetTreeHighlights` (lines 77–79): remove `highlighted-node` from every
`.node`. -/
def resetTreeHighlights (s : UIState) : UIState :=
  { s with treeNodes := s.treeNodes.map fun v => { v with highlightedNode := false } }

/-- `resetHTMLHighlights` (lines 84–93): remove `highlighted` and `hovered`
from every element of the iframe document carrying them. -/
def resetHTMLHighlights (s : UIState) : UIState :=
  { s with previewElems :=
      s.previewElems.map fun e => { e with highlighted := false, hovered := false } }

/-- `doc.querySelector("[data-node-id='id']")` followed by `if (el) …`:
apply `f` to the first element (in document order) whose `data-node-id`
attribute equals `id`; when no element matches, the list is unchanged. -/
def applyToFirstMatch (id : String) (f : PreviewElem → PreviewElem) :
    List PreviewElem → List PreviewElem
  | [] => []
  | e :: es =>
    if e.dataNodeId = some id then f e :: es
    else e :: applyToFirstMatch id f es

/-- `highlightTreeNode` (lines 99–113): reset the tree highlights, add
`highlighted-node` to every `.node` whose bound `d.data.nodeId` equals the
argument, reset the preview highlights, and add `highlighted` to the first
preview element whose attribute matches (if any). -/
def highlightTreeNode (nodeId : String) (s : UIState) : UIState :=
  let s₁ := resetTreeHighlights s
  let s₂ := { s₁ with treeNodes := s₁.treeNodes.map fun v =>
      if v.nodeId = some nodeId then { v with highlightedNode := true } else v }
  let s₃ := resetHTMLHighlights s₂
  { s₃ with previewElems :=
      applyToFirstMatch nodeId (fun e => { e with highlighted := true }) s₃.previewElems }

/-- `highlightHTMLSide` (lines 119–126): add `hovered` to the first preview
element matching the identifier, if any. -/
def highlightHTMLSide (nodeId : String) (s : UIState) : UIState :=
  { s with previewElems :=
      applyToFirstMatch nodeId (fun e => { e with hovered := true }) s.previewElems }

/-- `unhighlightHTMLSide` (lines 132–139): remove `hovered` from the first
preview element matching the identifier, if any. -/
def unhighlightHTMLSide (nodeId : String) (s : UIState) : UIState :=
  { s with previewElems :=
      applyToFirstMatch nodeId (fun e => { e with hovered := false }) s.previewElems }

mutual
/-- The preview surface produced by `renderHTML(doc.documentElement.outerHTML)`
(lines 50–56): the document is rewritten from scratch, so its elements appear
in document order carrying their `data-node-id` attributes and no highlight
classes. -/
def previewElemsOf : DomNode → List PreviewElem
  | .element _ id cs => ⟨id, false, false⟩ :: previewElemsOfChildren cs
  | _ => []

def previewElemsOfChildren : List DomNode → List PreviewElem
  | [] => []
  | x :: xs => previewElemsOf x ++ previewElemsOfChildren xs
end

mutual
/-- The `.node` groups produced by `drawTree` (lines 145–211): the canvas is
cleared (`svg.selectAll("*").remove()`) and one unclassed group is created per
descendant of the hierarchy, bound to its `TreeNode` datum.  (d3 enumerates
descendants breadth-first; the enumeration order is irrelevant to every
property proved here, and pre-order is used.) -/
def vizNodesOf : TreeNode → List VizNode
  | .mk id _ _ cs => ⟨id, false⟩ :: vizNodesOfList cs

def vizNodesOfList : List TreeNode → List VizNode
  | [] => []
  | t :: ts => vizNodesOf t ++ vizNodesOfList ts
end

/-- The observable outcome of one run of the orchestrator. -/
structure UpdateResult where
  taggedRoot : DomNode
  treeData : Option TreeNode
  ui : UIState
  nodeIdCounter : Nat

/-- `updateTree` (lines 217–234), on the root element the parser returned for
the input text.  The incoming value of the global `nodeIdCounter` is a
parameter; line 221 sets it to `0` before tagging, so the parameter is dead —
which is exactly the reset behaviour under verification.  The run tags the
parsed tree, renders it into the preview surface (fresh document, no highlight
classes), extracts the tree data and, when non-`null`, draws it as fresh
unclassed `.node` groups. -/
def updateTree (nodeIdCounter : Nat) (documentElement : DomNode) : UpdateResult :=
  let r := assignIdsToElements 0 documentElement
  let treeData := convertToTree r.1
  { taggedRoot := r.1
    treeData := treeData
    ui := { treeNodes := match treeData with
              | some t => vizNodesOf t
              | none => []
            previewElems := previewElemsOf r.1 }
    nodeIdCounter := r.2 }

/-- Modelled from the spec: the HTML parsing engine is an external
collaborator ("assumed to be a standard document parser").  A standard
`text/html` parser wraps the input `<div>A<span>B</span></div>` in the
mandatory `html`/`head`/`body` scaffolding, so `doc.documentElement` is the
`html` element below (HTML element tag names are reported upper-case). -/
def parsedExampleInput : DomNode :=
  .element "HTML" none
    [ .element "HEAD" none []
    , .element "BODY" none
        [ .element "DIV" none
            [ .text "A", .element "SPAN" none [ .text "B" ] ] ] ]

/-! ## Lemmas about the tagger -/

mutual
theorem assignIds_counter (c : Nat) (n : DomNode) :
    (assignIdsToElements c n).2 = c + countElements n := by
  cases n with
  | element tag id cs =>
    simp only [assignIdsToElements, countElements]
    rw [assignIdsChildren_counter]
    omega
  | text s => simp [assignIdsToElements, countElements]
  | comment s => simp [assignIdsToElements, countElements]

theorem assignIdsChildren_counter (c : Nat) (cs : List DomNode) :
    (assignIdsToChildren c cs).2 = c + countElementsOfChildren cs := by
  cases cs with
  | nil => simp [assignIdsToChildren, countElementsOfChildren]
  | cons x xs =>
    simp only [assignIdsToChildren, countElementsOfChildren]
    rw [assignIdsChildren_counter, assignIds_counter]
    omega
end

mutual
theorem elementIds_assign (c : Nat) (n : DomNode) :
    elementIds (assignIdsToElements c n).1 =
      (List.range' c (countElements n)).map (fun k => some (mkNodeId k)) := by
  cases n with
  | element tag id cs =>
    simp only [assignIdsToElements, elementIds, countElements]
    rw [elementIds_assignChildren, Nat.add_comm 1, List.range'_succ]
    simp
  | text s => simp [assignIdsToElements, elementIds, countElements]
  | comment s => simp [assignIdsToElements, elementIds, countElements]

theorem elementIds_assignChildren (c : Nat) (cs : List DomNode) :
    elementIdsOfChildren (assignIdsToChildren c cs).1 =
      (List.range' c (countElementsOfChildren cs)).map (fun k => some (mkNodeId k)) := by
  cases cs with
  | nil => simp [assignIdsToChildren, elementIdsOfChildren, countElementsOfChildren]
  | cons x xs =>
    simp only [assignIdsToChildren, elementIdsOfChildren, countElementsOfChildren]
    rw [elementIds_assign, elementIds_assignChildren, assignIds_counter,
      ← List.map_append, List.range'_append_1,
      Nat.add_comm (countElementsOfChildren xs)]
  end

theorem elementIds_length (n : DomNode) (c : Nat) :
    (elementIds (assignIdsToElements c n).1).length = countElements n := by
  rw [elementIds_assign]
  simp

/-- C1: with the counter reset to zero, tagging a tree with `N` element nodes
assigns exactly the `N` distinct identifiers `node-0` … `node-(N-1)`, in
depth-first pre-order (document order).  Tagging a fresh parse of the same
input again after another reset yields the same identifiers, since the
right-hand side below depends only on the parsed tree. -/
theorem tagging_assigns_distinct_preorder_ids (t : DomNode) :
    elementIds (assignIdsToElements 0 t).1 =
      (List.range (countElements t)).map (fun k => some (mkNodeId k)) ∧
    (elementIds (assignIdsToElements 0 t).1).Nodup := by
  constructor
  · rw [elementIds_assign, List.range_eq_range']
  · rw [elementIds_assign]
    exact (List.nodup_range' 0 (countElements t)).map
      ((Option.some_injective String).comp mkNodeId_injective)

/-! ## Lemmas about the extractor -/

/-- Node count of an optional extracted tree (`null` counts as zero). -/
def countTreeNodesOpt : Option TreeNode → Nat
  | some t => countTreeNodes t
  | none => 0

mutual
theorem convert_count (n : DomNode) :
    countTreeNodesOpt (convertToTree n) = countElements n := by
  cases n with
  | element tag id cs =>
    simp only [convertToTree, countTreeNodesOpt, countTreeNodes, countElements]
    rw [convertChildren_count]
  | text s => simp [convertToTree, countTreeNodesOpt, countElements]
  | comment s => simp [convertToTree, countTreeNodesOpt, countElements]

theorem convertChildren_count (cs : List DomNode) :
    countTreeNodesOfList (convertChildren cs) = countElementsOfChildren cs := by
  cases cs with
  | nil => simp [convertChildren, countTreeNodesOfList, countElementsOfChildren]
  | cons x xs =>
    have hx := convert_count x
    have hxs := convertChildren_count xs
    cases x with
    | element tag id csx =>
      simp only [convertToTree, countTreeNodesOpt] at hx
      simp only [convertChildren, convertToTree, countTreeNodesOfList,
        countElementsOfChildren]
      omega
    | text s =>
      simp only [convertChildren, convertToTree, countElementsOfChildren,
        countElements]
      omega
    | comment s =>
      simp only [convertChildren, convertToTree, countElementsOfChildren,
        countElements]
      omega
end

theorem convertChildren_nodeIds (cs : List DomNode) :
    (convertChildren cs).map TreeNode.nodeId =
      (cs.filter fun c => decide (c.nodeType = 1)).map DomNode.getDataNodeId := by
  induction cs with
  | nil => simp [convertChildren]
  | cons x xs ih =>
    cases x with
    | element tag id csx =>
      simp [convertChildren, convertToTree, DomNode.nodeType,
        DomNode.getDataNodeId, TreeNode.nodeId, ih]
    | text s => simp [convertChildren, convertToTree, DomNode.nodeType, ih]
    | comment s => simp [convertChildren, convertToTree, DomNode.nodeType, ih]

theorem convertChildren_names (cs : List DomNode) :
    (convertChildren cs).map TreeNode.name =
      (cs.filter fun c => decide (c.nodeType = 1)).map
        (fun c => jsToLowerCase c.tagName) := by
  induction cs with
  | nil => simp [convertChildren]
  | cons x xs ih =>
    cases x with
    | element tag id csx =>
      simp [convertChildren, convertToTree, DomNode.nodeType,
        DomNode.tagName, TreeNode.name, ih]
    | text s => simp [convertChildren, convertToTree, DomNode.nodeType, ih]
    | comment s => simp [convertChildren, convertToTree, DomNode.nodeType, ih]

/-- C2: extraction is structure-preserving.  The number of extracted tree
nodes equals the number of element nodes, and a tree node's `children`
sequence lines up (same order) with the element children of the source
element: same identifiers and same (lower-cased) names, in document order. -/
theorem extraction_structure_preserving :
    (∀ n : DomNode, countTreeNodesOpt (convertToTree n) = countElements n) ∧
    (∀ (tag : String) (id : Option String) (cs : List DomNode) (tn : TreeNode),
      convertToTree (DomNode.element tag id cs) = some tn →
      tn.children.map TreeNode.nodeId =
        (cs.filter fun c => decide (c.nodeType = 1)).map DomNode.getDataNodeId ∧
      tn.children.map TreeNode.name =
        (cs.filter fun c => decide (c.nodeType = 1)).map
          (fun c => jsToLowerCase c.tagName)) := by
  refine ⟨convert_count, ?_⟩
  intro tag id cs tn h
  simp only [convertToTree, Option.some.injEq] at h
  subst h
  exact ⟨convertChildren_nodeIds cs, convertChildren_names cs⟩

theorem extraction_structure_preserving_witness :
    (TreeNode.mk (some "node-3") "div" "AB"
        (convertChildren
          [DomNode.text "A",
           DomNode.element "SPAN" (some "node-4") [DomNode.text "B"]])).children.map
        TreeNode.nodeId =
      ([DomNode.text "A",
        DomNode.element "SPAN" (some "node-4") [DomNode.text "B"]].filter
          fun c => decide (c.nodeType = 1)).map DomNode.getDataNodeId ∧
    (TreeNode.mk (some "node-3") "div" "AB"
        (convertChildren
          [DomNode.text "A",
           DomNode.element "SPAN" (some "node-4") [DomNode.text "B"]])).children.map
        TreeNode.name =
      ([DomNode.text "A",
        DomNode.element "SPAN" (some "node-4") [DomNode.text "B"]].filter
          fun c => decide (c.nodeType = 1)).map
        (fun c => jsToLowerCase c.tagName) :=
  extraction_structure_preserving.2 "DIV" (some "node-3")
    [DomNode.text "A", DomNode.element "SPAN" (some "node-4") [DomNode.text "B"]]
    _ rfl

/-- C4: non-element nodes are invisible to the pipeline but do not block it.
Tagging a text or comment node writes no identifier and leaves the counter
untouched; within a child list, every element node (and all of its element
descendants) still receives its pre-order identifier, whatever non-element
siblings are interleaved; extraction turns text and comment nodes into `null`
while every element descendant still appears: the extracted node count of a
child list equals its element count. -/
theorem non_elements_skipped_but_traversal_continues :
    (∀ (s : String) (c : Nat),
      assignIdsToElements c (DomNode.text s) = (DomNode.text s, c)) ∧
    (∀ (s : String) (c : Nat),
      assignIdsToElements c (DomNode.comment s) = (DomNode.comment s, c)) ∧
    (∀ (c : Nat) (cs : List DomNode),
      elementIdsOfChildren (assignIdsToChildren c cs).1 =
        (List.range' c (countElementsOfChildren cs)).map
          (fun k => some (mkNodeId k))) ∧
    (∀ s : String, convertToTree (DomNode.text s) = none) ∧
    (∀ s : String, convertToTree (DomNode.comment s) = none) ∧
    (∀ cs : List DomNode,
      countTreeNodesOfList (convertChildren cs) = countElementsOfChildren cs) :=
  ⟨fun _ _ => rfl, fun _ _ => rfl,
   fun c cs => elementIds_assignChildren c cs,
   fun _ => rfl, fun _ => rfl,
   convertChildren_count⟩

/-- C9: an element that carries no `data-node-id` attribute (the tagger never
ran on it) is still extracted without failing: the result is a tree node whose
`nodeId` is `none` (`getAttribute` returned `null`), with the lower-cased
name, the trimmed aggregate text and the converted children as usual — in
particular the extracted subtree still accounts for every element
descendant. -/
theorem untagged_element_extraction (tag : String) (cs : List DomNode) :
    convertToTree (DomNode.element tag none cs) =
      some (TreeNode.mk none (jsToLowerCase tag)
        (jsTrim (DomNode.textContent (DomNode.element tag none cs)))
        (convertChildren cs)) ∧
    countTreeNodesOpt (convertToTree (DomNode.element tag none cs)) =
      countElements (DomNode.element tag none cs) :=
  ⟨rfl, convert_count _⟩

/-! ## Lemmas about the highlight coordinator -/

/-- `highlighted-node` count on the tree visualization. -/
def treeSelectedCount (s : UIState) : Nat :=
  s.treeNodes.countP fun v => v.highlightedNode

/-- `highlighted` count on the preview surface. -/
def previewSelectedCount (s : UIState) : Nat :=
  s.previewElems.countP fun e => e.highlighted

/-- `hovered` count on the preview surface. -/
def previewHoveredCount (s : UIState) : Nat :=
  s.previewElems.countP fun e => e.hovered

/-- No two tree-visualization nodes are bound to the same identifier (the
situation after drawing a freshly tagged tree, by C1's distinctness). -/
def treeIdsUnique (s : UIState) : Prop :=
  (s.treeNodes.map VizNode.nodeId).Pairwise fun a b => a ≠ b ∨ a = none

instance (s : UIState) : Decidable (treeIdsUnique s) := by
  unfold treeIdsUnique
  infer_instance

/-- Whenever both surfaces carry a selected marker, they carry it for the
same identifier. -/
def selectionAgrees (s : UIState) : Prop :=
  ∀ v ∈ s.treeNodes, v.highlightedNode = true →
    ∀ e ∈ s.previewElems, e.highlighted = true → v.nodeId = e.dataNodeId

theorem countP_le_one_of_unique (l : List (Option String))
    (h : l.Pairwise fun a b => a ≠ b ∨ a = none) (id : String) :
    l.countP (fun a => decide (a = some id)) ≤ 1 := by
  induction l with
  | nil => simp
  | cons a l ih =>
    rcases List.pairwise_cons.mp h with ⟨ha, hl⟩
    by_cases hid : a = some id
    · have hzero : l.countP (fun a => decide (a = some id)) = 0 := by
        rw [List.countP_eq_zero]
        intro b hb
        rcases ha b hb with hne | hnone
        · simp only [decide_eq_true_eq]
          intro hb'
          exact hne (hid.trans hb'.symm)
        · rw [hid] at hnone
          cases hnone
      simp [List.countP_cons, hid, hzero]
    · simpa [List.countP_cons, hid] using ih hl

theorem reset_tree_all_false (l : List VizNode) :
    ∀ v ∈ l.map fun v => { v with highlightedNode := false },
      v.highlightedNode = false := by
  intro v hv
  rcases List.mem_map.mp hv with ⟨w, _, rfl⟩
  rfl

theorem countP_if_set (id : String) (m : List VizNode)
    (hm : ∀ v ∈ m, v.highlightedNode = false) :
    ((m.map fun v =>
        if v.nodeId = some id then { v with highlightedNode := true } else v).countP
      fun v => v.highlightedNode) =
    m.countP fun v => decide (v.nodeId = some id) := by
  induction m with
  | nil => rfl
  | cons v vs ih =>
    have hv := hm v (List.mem_cons_self v vs)
    have htl := ih fun x hx => hm x (List.mem_cons_of_mem v hx)
    rw [List.map_cons, List.countP_cons, List.countP_cons, htl]
    by_cases hid : v.nodeId = some id
    · rw [if_pos hid]
      simp [hid]
    · rw [if_neg hid]
      simp [hid, hv]

theorem tree_phase_count (id : String) (l : List VizNode) :
    (((l.map fun v => { v with highlightedNode := false }).map
        fun v => if v.nodeId = some id then { v with highlightedNode := true } else v).countP
      fun v => v.highlightedNode) =
    l.countP fun v => decide (v.nodeId = some id) := by
  rw [countP_if_set id _ (reset_tree_all_false l), List.countP_map]
  rfl

theorem tree_phase_ids (id : String) (l : List VizNode) :
    ((l.map fun v => { v with highlightedNode := false }).map
        fun v => if v.nodeId = some id then { v with highlightedNode := true } else v).map
      VizNode.nodeId = l.map VizNode.nodeId := by
  induction l with
  | nil => simp
  | cons v vs ih =>
    by_cases hid : v.nodeId = some id
    · simpa [hid] using ih
    · simpa [hid] using ih

theorem set_highlighted_implies_id (id : String) (m : List VizNode)
    (hm : ∀ v ∈ m, v.highlightedNode = false) :
    ∀ w ∈ m.map fun v =>
        if v.nodeId = some id then { v with highlightedNode := true } else v,
      w.highlightedNode = true → w.nodeId = some id := by
  intro w hw hwt
  rcases List.mem_map.mp hw with ⟨v, hv, rfl⟩
  by_cases hid : v.nodeId = some id
  · rw [if_pos hid]
    exact hid
  · rw [if_neg hid] at hwt
    rw [hm v hv] at hwt
    cases hwt

theorem tree_phase_highlighted_id (id : String) (l : List VizNode) :
    ∀ v ∈ (l.map fun v => { v with highlightedNode := false }).map
        fun v => if v.nodeId = some id then { v with highlightedNode := true } else v,
      v.highlightedNode = true → v.nodeId = some id :=
  set_highlighted_implies_id id _ (reset_tree_all_false l)

theorem afm_no_match (id : String) (f : PreviewElem → PreviewElem)
    (l : List PreviewElem) (h : ∀ e ∈ l, e.dataNodeId ≠ some id) :
    applyToFirstMatch id f l = l := by
  induction l with
  | nil => rfl
  | cons e es ih =>
    rw [applyToFirstMatch, if_neg (h e (List.mem_cons_self e es))]
    rw [ih fun e' he' => h e' (List.mem_cons_of_mem e he')]

theorem afm_pred_preserved (id : String) (f : PreviewElem → PreviewElem)
    (p : PreviewElem → Prop) (l : List PreviewElem)
    (hl : ∀ e ∈ l, p e) (hf : ∀ e, e.dataNodeId = some id → p e → p (f e)) :
    ∀ e ∈ applyToFirstMatch id f l, p e := by
  induction l with
  | nil => simp [applyToFirstMatch]
  | cons e es ih =>
    intro e' he'
    rw [applyToFirstMatch] at he'
    by_cases hid : e.dataNodeId = some id
    · rw [if_pos hid] at he'
      rcases List.mem_cons.mp he' with rfl | he'
      · exact hf e hid (hl e (List.mem_cons_self e es))
      · exact hl e' (List.mem_cons_of_mem e he')
    · rw [if_neg hid] at he'
      rcases List.mem_cons.mp he' with rfl | he'
      · exact hl e' (List.mem_cons_self e' es)
      · exact ih (fun x hx => hl x (List.mem_cons_of_mem e hx)) e' he'

theorem afm_set_highlighted_count (id : String) (l : List PreviewElem)
    (h : ∀ e ∈ l, e.highlighted = false) :
    ((applyToFirstMatch id (fun e => { e with highlighted := true }) l).countP
      fun e => e.highlighted) ≤ 1 := by
  induction l with
  | nil => simp [applyToFirstMatch]
  | cons e es ih =>
    rw [applyToFirstMatch]
    by_cases hid : e.dataNodeId = some id
    · rw [if_pos hid]
      have hzero : (es.countP fun e => e.highlighted) = 0 := by
        rw [List.countP_eq_zero]
        intro b hb
        simp [h b (List.mem_cons_of_mem e hb)]
      simp [List.countP_cons, hzero]
    · rw [if_neg hid]
      have := ih fun x hx => h x (List.mem_cons_of_mem e hx)
      simp only [List.countP_cons, h e (List.mem_cons_self e es)]
      simpa using this

theorem reset_preview_flags (l : List PreviewElem) :
    ∀ e ∈ l.map fun e => { e with highlighted := false, hovered := false },
      e.highlighted = false ∧ e.hovered = false := by
  intro e he
  rcases List.mem_map.mp he with ⟨w, _, rfl⟩
  exact ⟨rfl, rfl⟩

theorem highlightTreeNode_selection (id : String) (s : UIState)
    (huniq : treeIdsUnique s) :
    treeSelectedCount (highlightTreeNode id s) ≤ 1 ∧
    previewSelectedCount (highlightTreeNode id s) ≤ 1 ∧
    selectionAgrees (highlightTreeNode id s) := by
  have htree : (highlightTreeNode id s).treeNodes =
      (s.treeNodes.map fun v => { v with highlightedNode := false }).map
        (fun v => if v.nodeId = some id then { v with highlightedNode := true } else v) :=
    rfl
  have hprev : (highlightTreeNode id s).previewElems =
      applyToFirstMatch id (fun e => { e with highlighted := true })
        (s.previewElems.map fun e => { e with highlighted := false, hovered := false }) :=
    rfl
  refine ⟨?_, ?_, ?_⟩
  · rw [treeSelectedCount, htree, tree_phase_count]
    have := countP_le_one_of_unique (s.treeNodes.map VizNode.nodeId) huniq id
    rwa [List.countP_map] at this
  · rw [previewSelectedCount, hprev]
    exact afm_set_highlighted_count id _
      fun e he => (reset_preview_flags s.previewElems e he).1
  · intro v hv hvt e he het
    rw [htree] at hv
    rw [hprev] at he
    have hvid := tree_phase_highlighted_id id s.treeNodes v hv hvt
    have heid : e.dataNodeId = some id := by
      refine afm_pred_preserved id _
        (fun e => e.highlighted = true → e.dataNodeId = some id) _ ?_ ?_ e he het
      · intro e' he' ht
        rw [(reset_preview_flags s.previewElems e' he').1] at ht
        cases ht
      · intro e' hid _ _
        exact hid
    rw [hvid, heid]

theorem highlightTreeNode_unique (id : String) (s : UIState)
    (h : treeIdsUnique s) : treeIdsUnique (highlightTreeNode id s) := by
  have htree : (highlightTreeNode id s).treeNodes =
      (s.treeNodes.map fun v => { v with highlightedNode := false }).map
        (fun v => if v.nodeId = some id then { v with highlightedNode := true } else v) :=
    rfl
  rw [treeIdsUnique, htree, tree_phase_ids]
  exact h

theorem selection_foldl_aux (ids : List String) :
    ∀ s : UIState, treeIdsUnique s →
      (treeSelectedCount s ≤ 1 ∧ previewSelectedCount s ≤ 1 ∧ selectionAgrees s) →
      treeSelectedCount (ids.foldl (fun t i => highlightTreeNode i t) s) ≤ 1 ∧
      previewSelectedCount (ids.foldl (fun t i => highlightTreeNode i t) s) ≤ 1 ∧
      selectionAgrees (ids.foldl (fun t i => highlightTreeNode i t) s) := by
  induction ids with
  | nil => exact fun s _ hi => hi
  | cons i ids ih =>
    intro s hu _hi
    have hu' := highlightTreeNode_unique i s hu
    have hi' := highlightTreeNode_selection i s hu
    simpa [List.foldl_cons] using ih (highlightTreeNode i s) hu' hi'

/-- C3: after any sequence of selection calls (`highlightTreeNode`), at most
one `.node` group carries `highlighted-node`, at most one preview element
carries `highlighted`, and whenever both surfaces carry a selected marker it
is for the same identifier.  The tree surface needs its bound identifiers to
be duplicate-free (`treeIdsUnique`), which holds for a freshly drawn tagged
tree by C1; for the empty call sequence the state must already be
unselected, which is how every update cycle starts. -/
theorem single_selection_invariant (s : UIState) (ids : List String)
    (huniq : treeIdsUnique s)
    (hstart : (treeSelectedCount s = 0 ∧ previewSelectedCount s = 0) ∨ ids ≠ []) :
    treeSelectedCount (ids.foldl (fun t i => highlightTreeNode i t) s) ≤ 1 ∧
    previewSelectedCount (ids.foldl (fun t i => highlightTreeNode i t) s) ≤ 1 ∧
    selectionAgrees (ids.foldl (fun t i => highlightTreeNode i t) s) := by
  cases ids with
  | nil =>
    rcases hstart with ⟨h1, h2⟩ | hne
    · refine ⟨by simp [h1], by simp [h2], ?_⟩
      intro v hv hvt
      exact absurd hvt (List.countP_eq_zero.mp h1 v hv)
    · exact absurd rfl hne
  | cons i ids =>
    have hu' := highlightTreeNode_unique i s huniq
    have hi' := highlightTreeNode_selection i s huniq
    simpa [List.foldl_cons] using selection_foldl_aux ids (highlightTreeNode i s) hu' hi'

/-- Two tree nodes, two preview elements, fresh flags: the state right after
an update cycle on a two-element document. -/
def twoNodeState : UIState :=
  { treeNodes := [⟨some "node-0", false⟩, ⟨some "node-1", false⟩]
    previewElems := [⟨some "node-0", false, false⟩, ⟨some "node-1", false, false⟩] }

theorem single_selection_invariant_witness :
    treeIdsUnique twoNodeState ∧
    (treeSelectedCount (["node-1", "node-0"].foldl
        (fun t i => highlightTreeNode i t) twoNodeState) ≤ 1 ∧
      previewSelectedCount (["node-1", "node-0"].foldl
        (fun t i => highlightTreeNode i t) twoNodeState) ≤ 1 ∧
      selectionAgrees (["node-1", "node-0"].foldl
        (fun t i => highlightTreeNode i t) twoNodeState)) :=
  ⟨by decide, single_selection_invariant twoNodeState ["node-1", "node-0"]
    (by decide) (Or.inr (by decide))⟩

theorem map_eq_self_of_mem {α : Type} (l : List α) (f : α → α)
    (h : ∀ a ∈ l, f a = a) : l.map f = l :=
  (List.map_congr_left h).trans (List.map_id l)

/-- A state in which an element is already selected on both surfaces
(reachable by a previous `highlightTreeNode "node-0"` call). -/
def staleSelectionState : UIState :=
  { treeNodes := [⟨some "node-0", true⟩]
    previewElems := [⟨some "node-0", true, false⟩] }

/-- C7 counterexample: `"node-9"` matches nothing on either surface, yet
`highlightTreeNode "node-9"` does not leave the highlight state unchanged —
the unconditional resets at the start of the call clear the existing
selection. -/
theorem unmatched_select_changes_state :
    (staleSelectionState.treeNodes.countP fun v => decide (v.nodeId = some "node-9")) = 0 ∧
    (staleSelectionState.previewElems.countP
      fun e => decide (e.dataNodeId = some "node-9")) = 0 ∧
    highlightTreeNode "node-9" staleSelectionState ≠ staleSelectionState := by
  decide

/-- C7 amended: calling `highlightTreeNode` with an identifier that matches
no element on either surface is silent (no error path exists) and leaves the
state with no selected and no hover marker at all — it clears whatever
highlight was present; when no highlight marker was present to begin with,
the state is exactly unchanged. -/
theorem unmatched_select_clears (s : UIState) (id : String)
    (htree : ∀ v ∈ s.treeNodes, v.nodeId ≠ some id)
    (hprev : ∀ e ∈ s.previewElems, e.dataNodeId ≠ some id) :
    (∀ v ∈ (highlightTreeNode id s).treeNodes, v.highlightedNode = false) ∧
    (∀ e ∈ (highlightTreeNode id s).previewElems,
      e.highlighted = false ∧ e.hovered = false) ∧
    ((∀ v ∈ s.treeNodes, v.highlightedNode = false) →
      (∀ e ∈ s.previewElems, e.highlighted = false ∧ e.hovered = false) →
      highlightTreeNode id s = s) := by
  have htreeEq : (highlightTreeNode id s).treeNodes =
      (s.treeNodes.map fun v => { v with highlightedNode := false }).map
        (fun v => if v.nodeId = some id then { v with highlightedNode := true } else v) :=
    rfl
  have hprevEq : (highlightTreeNode id s).previewElems =
      applyToFirstMatch id (fun e => { e with highlighted := true })
        (s.previewElems.map fun e => { e with highlighted := false, hovered := false }) :=
    rfl
  have hprevNoMatch : ∀ e ∈ s.previewElems.map
      (fun e => { e with highlighted := false, hovered := false } : PreviewElem → PreviewElem),
      e.dataNodeId ≠ some id := by
    intro e he
    rcases List.mem_map.mp he with ⟨w, hw, rfl⟩
    exact hprev w hw
  have hafm := afm_no_match id (fun e => { e with highlighted := true }) _ hprevNoMatch
  refine ⟨?_, ?_, ?_⟩
  · intro v hv
    rw [htreeEq] at hv
    rcases List.mem_map.mp hv with ⟨w, hw, rfl⟩
    rcases List.mem_map.mp hw with ⟨u, hu, rfl⟩
    rw [if_neg]
    exact htree u hu
  · intro e he
    rw [hprevEq, hafm] at he
    exact reset_preview_flags s.previewElems e he
  · intro htf hpf
    have hreset : ∀ v ∈ s.treeNodes,
        ({ v with highlightedNode := false } : VizNode) = v := by
      intro v hv
      have hf := htf v hv
      cases v with
      | mk nid hl => rw [show hl = false from hf]
    have h1 : (highlightTreeNode id s).treeNodes = s.treeNodes := by
      rw [htreeEq, map_eq_self_of_mem _ _ hreset]
      exact map_eq_self_of_mem _ _ fun v hv => if_neg (htree v hv)
    have h2 : (highlightTreeNode id s).previewElems = s.previewElems := by
      rw [hprevEq, hafm]
      exact map_eq_self_of_mem _ _ fun e he => by
        have hf := hpf e he
        cases e with
        | mk d hl hv =>
          rw [show hl = false from hf.1, show hv = false from hf.2]
    calc highlightTreeNode id s
        = UIState.mk (highlightTreeNode id s).treeNodes
            (highlightTreeNode id s).previewElems := rfl
      _ = UIState.mk s.treeNodes s.previewElems := by rw [h1, h2]
      _ = s := rfl

theorem unmatched_select_clears_witness :
    (∀ v ∈ staleSelectionState.treeNodes, v.nodeId ≠ some "node-9") ∧
    ((∀ v ∈ (highlightTreeNode "node-9" staleSelectionState).treeNodes,
        v.highlightedNode = false) ∧
      (∀ e ∈ (highlightTreeNode "node-9" staleSelectionState).previewElems,
        e.highlighted = false ∧ e.hovered = false) ∧
      ((∀ v ∈ staleSelectionState.treeNodes, v.highlightedNode = false) →
        (∀ e ∈ staleSelectionState.previewElems,
          e.highlighted = false ∧ e.hovered = false) →
        highlightTreeNode "node-9" staleSelectionState = staleSelectionState)) :=
  ⟨by decide, unmatched_select_clears staleSelectionState "node-9"
    (by decide) (by decide)⟩

theorem afm_map_eq {β : Type} (id : String) (f : PreviewElem → PreviewElem)
    (g : PreviewElem → β) (hg : ∀ e, g (f e) = g e) (l : List PreviewElem) :
    (applyToFirstMatch id f l).map g = l.map g := by
  induction l with
  | nil => rfl
  | cons e es ih =>
    rw [applyToFirstMatch]
    by_cases hid : e.dataNodeId = some id
    · rw [if_pos hid, List.map_cons, List.map_cons, hg]
    · rw [if_neg hid, List.map_cons, List.map_cons, ih]

theorem afm_set_clear_hover (id : String) (l : List PreviewElem)
    (h : ∀ e ∈ l, e.hovered = false) :
    applyToFirstMatch id (fun e => { e with hovered := false })
      (applyToFirstMatch id (fun e => { e with hovered := true }) l) = l := by
  induction l with
  | nil => rfl
  | cons e es ih =>
    by_cases hid : e.dataNodeId = some id
    · rw [applyToFirstMatch, if_pos hid, applyToFirstMatch,
        if_pos (show ({ e with hovered := true } : PreviewElem).dataNodeId = some id from hid)]
      have hcancel : ({ { e with hovered := true } with hovered := false } : PreviewElem) = e := by
        cases e with
        | mk d hl hv => rw [show hv = false from h _ (List.mem_cons_self _ es)]
      rw [hcancel]
    · rw [applyToFirstMatch, if_neg hid, applyToFirstMatch, if_neg hid,
        ih fun x hx => h x (List.mem_cons_of_mem e hx)]

theorem afm_set_hover_count (id : String) (l : List PreviewElem)
    (h : ∀ e ∈ l, e.hovered = false)
    (hp : some id ∈ l.map PreviewElem.dataNodeId) :
    ((applyToFirstMatch id (fun e => { e with hovered := true }) l).countP
      fun e => e.hovered) = 1 := by
  induction l with
  | nil => simp at hp
  | cons e es ih =>
    rw [applyToFirstMatch]
    by_cases hid : e.dataNodeId = some id
    · rw [if_pos hid, List.countP_cons]
      have hzero : (es.countP fun e => e.hovered) = 0 := by
        rw [List.countP_eq_zero]
        intro b hb
        simp [h b (List.mem_cons_of_mem e hb)]
      simp [hzero]
    · rw [if_neg hid, List.countP_cons]
      have hp' : some id ∈ es.map PreviewElem.dataNodeId := by
        rcases List.mem_map.mp hp with ⟨x, hx, hxe⟩
        rcases List.mem_cons.mp hx with rfl | hx'
        · exact absurd hxe hid
        · exact List.mem_map.mpr ⟨x, hx', hxe⟩
      rw [ih (fun x hx => h x (List.mem_cons_of_mem e hx)) hp']
      simp [h e (List.mem_cons_self e es)]

/-- C8: for an identifier present on the preview surface, setting hover then
clearing hover for it restores the state exactly — in particular no `hovered`
marker remains anywhere — and setting hover touches neither the `highlighted`
markers of the preview surface nor the tree visualization.  The hover-free
starting state is how a hover interaction begins (hover is transient and the
preview is drawn unhovered). -/
theorem hover_set_then_clear (s : UIState) (id : String)
    (hpresent : some id ∈ s.previewElems.map PreviewElem.dataNodeId)
    (hnohover : ∀ e ∈ s.previewElems, e.hovered = false) :
    previewHoveredCount (highlightHTMLSide id s) = 1 ∧
    (highlightHTMLSide id s).previewElems.map PreviewElem.highlighted =
      s.previewElems.map PreviewElem.highlighted ∧
    (highlightHTMLSide id s).treeNodes = s.treeNodes ∧
    unhighlightHTMLSide id (highlightHTMLSide id s) = s ∧
    (∀ e ∈ (unhighlightHTMLSide id (highlightHTMLSide id s)).previewElems,
      e.hovered = false) := by
  have hround : unhighlightHTMLSide id (highlightHTMLSide id s) = s := by
    have hpe : (unhighlightHTMLSide id (highlightHTMLSide id s)).previewElems =
        s.previewElems := afm_set_clear_hover id s.previewElems hnohover
    cases s with
    | mk tn pe => exact congrArg (UIState.mk tn) hpe
  refine ⟨afm_set_hover_count id s.previewElems hnohover hpresent,
    afm_map_eq id (fun e => { e with hovered := true }) PreviewElem.highlighted
      (fun e => rfl) s.previewElems,
    rfl, hround, ?_⟩
  rw [hround]
  exact hnohover

theorem hover_set_then_clear_witness :
    some "node-1" ∈ twoNodeState.previewElems.map PreviewElem.dataNodeId ∧
    (previewHoveredCount (highlightHTMLSide "node-1" twoNodeState) = 1 ∧
      (highlightHTMLSide "node-1" twoNodeState).previewElems.map
          PreviewElem.highlighted =
        twoNodeState.previewElems.map PreviewElem.highlighted ∧
      (highlightHTMLSide "node-1" twoNodeState).treeNodes =
        twoNodeState.treeNodes ∧
      unhighlightHTMLSide "node-1" (highlightHTMLSide "node-1" twoNodeState) =
        twoNodeState ∧
      (∀ e ∈ (unhighlightHTMLSide "node-1"
          (highlightHTMLSide "node-1" twoNodeState)).previewElems,
        e.hovered = false)) :=
  ⟨by decide, hover_set_then_clear twoNodeState "node-1" (by decide) (by decide)⟩

/-! ## Lemmas about the orchestrator -/

mutual
theorem previewElemsOf_flags (n : DomNode) :
    ∀ e ∈ previewElemsOf n, e.highlighted = false ∧ e.hovered = false := by
  cases n with
  | element tag id cs =>
    intro e he
    rw [previewElemsOf] at he
    rcases List.mem_cons.mp he with rfl | he
    · exact ⟨rfl, rfl⟩
    · exact previewElemsOfChildren_flags cs e he
  | text s => intro e he; cases he
  | comment s => intro e he; cases he

theorem previewElemsOfChildren_flags (cs : List DomNode) :
    ∀ e ∈ previewElemsOfChildren cs, e.highlighted = false ∧ e.hovered = false := by
  cases cs with
  | nil => intro e he; cases he
  | cons x xs =>
    intro e he
    rw [previewElemsOfChildren] at he
    rcases List.mem_append.mp he with he | he
    · exact previewElemsOf_flags x e he
    · exact previewElemsOfChildren_flags xs e he
end

mutual
theorem vizNodesOf_flags (t : TreeNode) :
    ∀ v ∈ vizNodesOf t, v.highlightedNode = false := by
  cases t with
  | mk id name txt cs =>
    intro v hv
    rw [vizNodesOf] at hv
    rcases List.mem_cons.mp hv with rfl | hv
    · rfl
    · exact vizNodesOfList_flags cs v hv

theorem vizNodesOfList_flags (ts : List TreeNode) :
    ∀ v ∈ vizNodesOfList ts, v.highlightedNode = false := by
  cases ts with
  | nil => intro v hv; cases hv
  | cons t ts =>
    intro v hv
    rw [vizNodesOfList] at hv
    rcases List.mem_append.mp hv with hv | hv
    · exact vizNodesOf_flags t v hv
    · exact vizNodesOfList_flags ts v hv
end

/-- C5: the orchestrator is idempotent.  A second run with the same input
text re-parses it to the same tree (the parser is deterministic), and because
line 221 resets the identifier counter before tagging, the second run's
observable outcome — tagged document, extracted tree, and both drawn surfaces
— is identical to the first run's, whatever counter value the first run left
behind; and every run starts its surfaces with no selected and no hovered
marker anywhere. -/
theorem orchestrator_idempotent (c₁ c₂ : Nat) (t : DomNode) :
    updateTree c₁ t = updateTree c₂ t ∧
    (∀ v ∈ (updateTree c₁ t).ui.treeNodes, v.highlightedNode = false) ∧
    (∀ e ∈ (updateTree c₁ t).ui.previewElems,
      e.highlighted = false ∧ e.hovered = false) := by
  refine ⟨rfl, ?_, ?_⟩
  · intro v hv
    simp only [updateTree] at hv
    rcases h : convertToTree (assignIdsToElements 0 t).1 with _ | tn
    · rw [h] at hv
      cases hv
    · rw [h] at hv
      exact vizNodesOf_flags tn v hv
  · intro e he
    simp only [updateTree] at he
    exact previewElemsOf_flags _ e he

/-- C6 counterexample: on the input `<div>A<span>B</span></div>` the parsed
document's root element is the `html` wrapper the parser adds, so the update
cycle gives the `div` identifier `node-3` (after `html` = `node-0`,
`head` = `node-1`, `body` = `node-2`), not `node-0`, and the extracted tree's
root is the `html` node, not the `div`. -/
theorem example_update_counterexample :
    ((updateTree 0 parsedExampleInput).treeData.bind fun t =>
        (t.children.get? 1).bind fun body =>
          (body.children.get? 0).map TreeNode.name) = some "div" ∧
    ((updateTree 0 parsedExampleInput).treeData.bind fun t =>
        (t.children.get? 1).bind fun body =>
          (body.children.get? 0).map TreeNode.nodeId) = some (some "node-3") ∧
    some (some "node-3") ≠ some (some "node-0") ∧
    (updateTree 0 parsedExampleInput).treeData.map TreeNode.name = some "html" ∧
    some "html" ≠ some "div" := by
  refine ⟨rfl, rfl, by decide, rfl, by decide⟩

/-- C6 amended: on `<div>A<span>B</span></div>` the update cycle tags the
five elements of the parsed document `html`, `head`, `body`, `div`, `span`
with `node-0` … `node-4` in pre-order; the `div` (identifier `node-3`)
carries trimmed aggregate text `"AB"` and has exactly one child, the `span`
(identifier `node-4`, text `"B"`); the extracted root is the `html` node. -/
theorem example_update_amended :
    elementIds (updateTree 0 parsedExampleInput).taggedRoot =
      [some "node-0", some "node-1", some "node-2", some "node-3", some "node-4"] ∧
    (updateTree 0 parsedExampleInput).treeData =
      some (TreeNode.mk (some "node-0") "html" "AB"
        [ TreeNode.mk (some "node-1") "head" "" []
        , TreeNode.mk (some "node-2") "body" "AB"
            [ TreeNode.mk (some "node-3") "div" "AB"
                [ TreeNode.mk (some "node-4") "span" "B" [] ] ] ]) :=
  ⟨rfl, rfl⟩

/-! ## Pre-order numbering of the extracted tree (C10) -/

mutual
/-- All nodes of an extracted tree, the root included. -/
def allTreeNodes : TreeNode → List TreeNode
  | .mk id n t cs => .mk id n t cs :: allTreeNodesOfList cs

def allTreeNodesOfList : List TreeNode → List TreeNode
  | [] => []
  | t :: ts => allTreeNodes t ++ allTreeNodesOfList ts
end

/-- The numeric part of a tree node's identifier (`node-<k>` ↦ `k`;
zero when the node carries no identifier). -/
def numOf (t : TreeNode) : Nat :=
  match t.nodeId with
  | some s => numericPart s
  | none => 0

/-- Every node's numeric identifier part is strictly smaller than each of its
children's, and strictly increases along its `children` sequence. -/
def preorderIncreasing (t : TreeNode) : Prop :=
  ∀ p ∈ allTreeNodes t, (∀ ch ∈ p.children, numOf p < numOf ch) ∧
    List.Chain' (fun a b => numOf a < numOf b) p.children

instance (t : TreeNode) : Decidable (preorderIncreasing t) := by
  unfold preorderIncreasing
  infer_instance

theorem mem_allTreeNodesOfList (x : TreeNode) (ts : List TreeNode) :
    x ∈ allTreeNodesOfList ts ↔ ∃ t ∈ ts, x ∈ allTreeNodes t := by
  induction ts with
  | nil => simp [allTreeNodesOfList]
  | cons t ts ih =>
    rw [allTreeNodesOfList, List.mem_append, ih]
    constructor
    · rintro (hx | ⟨u, hu, hxu⟩)
      · exact ⟨t, List.mem_cons_self t ts, hx⟩
      · exact ⟨u, List.mem_cons_of_mem t hu, hxu⟩
    · rintro ⟨u, hu, hxu⟩
      rcases List.mem_cons.mp hu with rfl | hu
      · exact Or.inl hxu
      · exact Or.inr ⟨u, hu, hxu⟩

theorem self_mem_allTreeNodes (t : TreeNode) : t ∈ allTreeNodes t := by
  cases t with
  | mk id n txt cs =>
    rw [allTreeNodes]
    exact List.mem_cons_self _ _

mutual
theorem tagged_numbering_spec (tag : String) (id : Option String)
    (cs : List DomNode) (c : Nat) (tn : TreeNode)
    (h : convertToTree ((assignIdsToElements c (DomNode.element tag id cs)).1) = some tn) :
    tn.nodeId = some (mkNodeId c) ∧ numOf tn = c ∧
    (∀ x ∈ allTreeNodes tn, c ≤ numOf x ∧
      numOf x < c + countElements (DomNode.element tag id cs)) ∧
    preorderIncreasing tn := by
  rw [assignIdsToElements] at h
  simp only [convertToTree, Option.some.injEq] at h
  subst h
  have hch := tagged_children_numbering cs (c + 1)
  have hnum : numOf (TreeNode.mk (some (mkNodeId c)) (jsToLowerCase tag)
      (jsTrim (DomNode.textContent (DomNode.element tag (some (mkNodeId c))
        (assignIdsToChildren (c + 1) cs).1)))
      (convertChildren (assignIdsToChildren (c + 1) cs).1)) = c := by
    rw [numOf]
    simp [TreeNode.nodeId, numericPart_mkNodeId]
  refine ⟨rfl, hnum, ?_, ?_⟩
  · intro x hx
    rw [allTreeNodes] at hx
    rcases List.mem_cons.mp hx with rfl | hx
    · rw [hnum]
      rw [countElements]
      omega
    · rcases (mem_allTreeNodesOfList x _).mp hx with ⟨t, ht, hxt⟩
      have := (hch.1 t ht) x hxt
      rw [countElements]
      omega
  · intro p hp
    rw [allTreeNodes] at hp
    rcases List.mem_cons.mp hp with rfl | hp
    · constructor
      · intro ch hch'
        have := (hch.1 ch hch') ch (self_mem_allTreeNodes ch)
        rw [hnum]
        omega
      · exact hch.2.1
    · rcases (mem_allTreeNodesOfList p _).mp hp with ⟨t, ht, hpt⟩
      exact hch.2.2 t ht p hpt

theorem tagged_children_numbering (cs : List DomNode) (c : Nat) :
    (∀ t ∈ convertChildren (assignIdsToChildren c cs).1, ∀ x ∈ allTreeNodes t,
      c ≤ numOf x ∧ numOf x < c + countElementsOfChildren cs) ∧
    List.Chain' (fun a b => numOf a < numOf b)
      (convertChildren (assignIdsToChildren c cs).1) ∧
    (∀ t ∈ convertChildren (assignIdsToChildren c cs).1, preorderIncreasing t) := by
  cases cs with
  | nil =>
    refine ⟨?_, ?_, ?_⟩ <;> simp [assignIdsToChildren, convertChildren]
  | cons x xs =>
    cases x with
    | element tagx idx csx =>
      rcases hconv : convertToTree (assignIdsToElements c (DomNode.element tagx idx csx)).1
        with _ | tx
      · rw [assignIdsToElements] at hconv
        simp [convertToTree] at hconv
      · have hspec := tagged_numbering_spec tagx idx csx c tx hconv
        have hcnt := assignIds_counter c (DomNode.element tagx idx csx)
        have hrest := tagged_children_numbering xs
          (c + countElements (DomNode.element tagx idx csx))
        have hlist : convertChildren (assignIdsToChildren c
              (DomNode.element tagx idx csx :: xs)).1 =
            tx :: convertChildren (assignIdsToChildren
              (c + countElements (DomNode.element tagx idx csx)) xs).1 := by
          rw [assignIdsToChildren]
          simp only [hcnt]
          rw [convertChildren, hconv]
        rw [hlist]
        have hpos : 1 ≤ countElements (DomNode.element tagx idx csx) := by
          rw [countElements]
          omega
        refine ⟨?_, ?_, ?_⟩
        · intro t ht y hy
          rcases List.mem_cons.mp ht with rfl | ht
          · have := hspec.2.2.1 y hy
            rw [countElementsOfChildren]
            omega
          · have := hrest.1 t ht y hy
            rw [countElementsOfChildren]
            omega
        · rw [List.chain'_cons']
          refine ⟨?_, hrest.2.1⟩
          intro b hb
          have hbmem := List.mem_of_mem_head? hb
          have hbr := hrest.1 b hbmem b (self_mem_allTreeNodes b)
          rw [hspec.2.1]
          omega
        · intro t ht
          rcases List.mem_cons.mp ht with rfl | ht
          · exact hspec.2.2.2
          · exact hrest.2.2 t ht
    | text s =>
      have hrest := tagged_children_numbering xs c
      have hlist : convertChildren (assignIdsToChildren c (DomNode.text s :: xs)).1 =
          convertChildren (assignIdsToChildren c xs).1 := rfl
      have hcount : countElementsOfChildren (DomNode.text s :: xs) =
          countElementsOfChildren xs := by
        have h0 : countElements (DomNode.text s) = 0 := rfl
        rw [countElementsOfChildren, h0]
        omega
      rw [hlist, hcount]
      exact hrest
    | comment s =>
      have hrest := tagged_children_numbering xs c
      have hlist : convertChildren (assignIdsToChildren c (DomNode.comment s :: xs)).1 =
          convertChildren (assignIdsToChildren c xs).1 := rfl
      have hcount : countElementsOfChildren (DomNode.comment s :: xs) =
          countElementsOfChildren xs := by
        have h0 : countElements (DomNode.comment s) = 0 := rfl
        rw [countElementsOfChildren, h0]
        omega
      rw [hlist, hcount]
      exact hrest
end

/-- C10: in a tree extracted from a freshly tagged element tree (counter reset
to zero), the numeric part of every node's identifier is strictly greater
than its parent's, and strictly increases across each node's children from
first to last — the footprint of depth-first pre-order numbering. -/
theorem extracted_ids_preorder_monotone (t : DomNode) (htype : t.nodeType = 1)
    (tn : TreeNode)
    (h : convertToTree ((assignIdsToElements 0 t).1) = some tn) :
    ∀ p ∈ allTreeNodes tn, (∀ ch ∈ p.children, numOf p < numOf ch) ∧
      List.Chain' (fun a b => numOf a < numOf b) p.children := by
  cases t with
  | element tag id cs => exact (tagged_numbering_spec tag id cs 0 tn h).2.2.2
  | text s => simp [DomNode.nodeType] at htype
  | comment s => simp [DomNode.nodeType] at htype

theorem extracted_ids_preorder_monotone_witness :
    DomNode.nodeType parsedExampleInput = 1 ∧
    (∀ p ∈ allTreeNodes (TreeNode.mk (some "node-0") "html" "AB"
        [ TreeNode.mk (some "node-1") "head" "" []
        , TreeNode.mk (some "node-2") "body" "AB"
            [ TreeNode.mk (some "node-3") "div" "AB"
                [ TreeNode.mk (some "node-4") "span" "B" [] ] ] ]),
      (∀ ch ∈ p.children, numOf p < numOf ch) ∧
        List.Chain' (fun a b => numOf a < numOf b) p.children) :=
  ⟨rfl, extracted_ids_preorder_monotone parsedExampleInput rfl
    (TreeNode.mk (some "node-0") "html" "AB"
      [ TreeNode.mk (some "node-1") "head" "" []
      , TreeNode.mk (some "node-2") "body" "AB"
          [ TreeNode.mk (some "node-3") "div" "AB"
              [ TreeNode.mk (some "node-4") "span" "B" [] ] ] ]) rfl⟩

theorem orchestrator_idempotent_witness :
    updateTree 0 parsedExampleInput = updateTree 5 parsedExampleInput ∧
    (∀ v ∈ (updateTree 0 parsedExampleInput).ui.treeNodes,
      v.highlightedNode = false) ∧
    (∀ e ∈ (updateTree 0 parsedExampleInput).ui.previewElems,
      e.highlighted = false ∧ e.hovered = false) :=
  orchestrator_idempotent 0 5 parsedExampleInput
